import Mathlib

/-!
Verification of the `relative-luminance` crate (`src/lib.rs`, `examples/contrast.rs`).

The crate computes BT.709 relative luminance `r*0.2126 + g*0.7152 + b*0.0722`
generically over a numeric policy (the `LuminanceValue` trait), ships `f32` and
`f64` policies, offers an `Rgb` container and a `Luminance` adapter trait whose
default method derives relative luminance from a single normalization method.

IEEE-754 binary32/binary64 arithmetic is modelled exactly over `ℚ`: a finite
float value is represented by the rational it denotes, and each arithmetic
operation performs the exact rational operation followed by correct rounding to
nearest with ties to even.  All concrete values appearing in the claims are far
inside the normal range, so overflow to infinity and NaN/−0 bookkeeping never
arise in the evaluated computations.
-/

attribute [local semireducible] Rat.mul Rat.add Rat.sub Rat.inv

namespace RelLum

/-! ## Exact model of IEEE-754 round-to-nearest-even over ℚ -/

/-- Fuel-driven base-2 logarithm on naturals, structurally recursive so that
concrete instances evaluate inside proofs. -/
def log2Aux : ℕ → ℕ → ℕ
  | 0, _ => 0
  | _, 0 => 0
  | fuel+1, n => if n < 2 then 0 else log2Aux fuel (n / 2) + 1

/-- Floor of the base-2 logarithm of a positive natural number (0 on 0 and 1).
`log2Aux n n` suffices since the argument at least halves each step. -/
def natLog2 (n : ℕ) : ℕ := log2Aux n n

/-- Decides `2 ^ c ≤ q` for a positive rational `q` using only `Nat` arithmetic. -/
def pow2LE (c : ℤ) (q : ℚ) : Bool :=
  let a := q.num.natAbs
  let b := q.den
  if 0 ≤ c then decide (2 ^ c.toNat * b ≤ a) else decide (b ≤ a * 2 ^ (-c).toNat)

/-- Floor of the base-2 logarithm of a positive rational:
the unique `e` with `2 ^ e ≤ q < 2 ^ (e+1)`. -/
def floorLog2 (q : ℚ) : ℤ :=
  let c0 : ℤ := (natLog2 q.num.natAbs : ℤ) - (natLog2 q.den : ℤ)
  if pow2LE c0 q then c0 else c0 - 1

/-- Multiplies a rational by an integer power of two. -/
def mulPow2 (q : ℚ) (k : ℤ) : ℚ :=
  if 0 ≤ k then q * (2 : ℚ) ^ k.toNat else q / (2 : ℚ) ^ (-k).toNat

/-- Rounds a nonnegative rational to the nearest natural number, ties to even. -/
def rne (s : ℚ) : ℕ :=
  let a := s.num.natAbs
  let b := s.den
  let n0 := a / b
  let r := a % b
  if 2 * r < b then n0
  else if b < 2 * r then n0 + 1
  else if n0 % 2 = 0 then n0 else n0 + 1

/-- Rounds a positive rational to the IEEE grid with `prec` significand bits and
minimal exponent `kmin` for the least significant bit (subnormal spacing). -/
def roundPos (prec : ℕ) (kmin : ℤ) (q : ℚ) : ℚ :=
  let e : ℤ := floorLog2 q - ((prec : ℤ) - 1)
  let k : ℤ := if e ≤ kmin then kmin else e
  mulPow2 (rne (mulPow2 q (-k)) : ℚ) k

/-- Correct rounding of a rational to a binary floating-point format
(round to nearest, ties to even).  Finite results only: the claims never
reach the overflow threshold, so it is not modelled. -/
def roundFloat (prec : ℕ) (kmin : ℤ) (q : ℚ) : ℚ :=
  if q = 0 then 0
  else if 0 < q then roundPos prec kmin q
  else -(roundPos prec kmin (-q))

/-- Rounds an exact rational to the nearest IEEE-754 binary32 value. -/
def toF32 (q : ℚ) : ℚ := roundFloat 24 (-149) q

/-- Rounds an exact rational to the nearest IEEE-754 binary64 value. -/
def toF64 (q : ℚ) : ℚ := roundFloat 53 (-1074) q

/-- Round-to-nearest-ties-to-even of the fraction `a / b` on naturals; the
computation performed by `rne` on a numerator and denominator. -/
def rneN (a b : ℕ) : ℕ :=
  if 2 * (a % b) < b then a / b
  else if b < 2 * (a % b) then a / b + 1
  else if (a / b) % 2 = 0 then a / b else a / b + 1

/-- Exponent of the least significant bit of the rounding grid that `roundPos`
uses for a positive rational `q`. -/
def kexp (prec : ℕ) (kmin : ℤ) (q : ℚ) : ℤ :=
  if floorLog2 q - ((prec : ℤ) - 1) ≤ kmin then kmin
  else floorLog2 q - ((prec : ℤ) - 1)

/-- Rounding of a rational to the fixed grid of multiples of `2 ^ k`,
to nearest with ties to even; `roundPos` is `roundGrid` at the exponent
`kexp`. -/
def roundGrid (k : ℤ) (q : ℚ) : ℚ :=
  mulPow2 (rne (mulPow2 q (-k)) : ℚ) k

/-- IEEE-754 binary32 addition of finite values (exact sum, then rounding). -/
def f32add (x y : ℚ) : ℚ := toF32 (x + y)

/-- IEEE-754 binary32 multiplication of finite values. -/
def f32mul (x y : ℚ) : ℚ := toF32 (x * y)

/-- IEEE-754 binary32 division of finite values. -/
def f32div (x y : ℚ) : ℚ := toF32 (x / y)

/-- IEEE-754 binary64 addition of finite values. -/
def f64add (x y : ℚ) : ℚ := toF64 (x + y)

/-- IEEE-754 binary64 multiplication of finite values. -/
def f64mul (x y : ℚ) : ℚ := toF64 (x * y)

/-! ## Embedding of `src/lib.rs`

Rust's `trait LuminanceValue` (lib.rs lines 70-102) fixes three associated
types `Channel`, `Weight`, `Weighted`, the bounds
`Channel: Mul<Weight, Output = Weighted>` and
`Weighted: Add<Weighted, Output = Weighted>`, and three weight constants.
A trait with associated types, operator bounds, and constants is embedded as a
structure bundling the three types' operations and the constants. -/

/-- Embedding of `trait LuminanceValue` (lib.rs 70-102): the numeric policy.
`mul` is the `Channel * Weight` operation required by the `Channel` bound;
`add` is the `Weighted + Weighted` operation required by the `Weighted` bound.
Fields in order: `mul`, `add`, `RED_WEIGHT`, `GREEN_WEIGHT`, `BLUE_WEIGHT`. -/
structure LuminanceValue (Channel Weight Weighted : Type) where
  mul : Channel → Weight → Weighted
  add : Weighted → Weighted → Weighted
  RED_WEIGHT : Weight
  GREEN_WEIGHT : Weight
  BLUE_WEIGHT : Weight

/-- Embedding of the free function `relative_luminance` (lib.rs 105-111):
`(r * T::RED_WEIGHT) + (g * T::GREEN_WEIGHT) + (b * T::BLUE_WEIGHT)`.
Rust's `x + y + z` parses left-associatively, so the red and green terms are
added first and the blue term is added to that sum. -/
def relative_luminance {C W X : Type} (T : LuminanceValue C W X)
    (r g b : C) : X :=
  T.add (T.add (T.mul r T.RED_WEIGHT) (T.mul g T.GREEN_WEIGHT)) (T.mul b T.BLUE_WEIGHT)

/-- Embedding of `impl LuminanceValue for f32` (lib.rs 113-120):
`Channel = Weight = Weighted = f32`; finite `f32` values are the rationals they
denote, `*` and `+` are correctly rounded binary32 operations, and each weight
constant is the decimal literal rounded to binary32. -/
def f32Policy : LuminanceValue ℚ ℚ ℚ :=
  ⟨f32mul, f32add, toF32 (2126/10000), toF32 (7152/10000), toF32 (722/10000)⟩

/-- Embedding of `impl LuminanceValue for f64` (lib.rs 122-129):
`Channel = Weight = Weighted = f64`, with binary64 operations and constants. -/
def f64Policy : LuminanceValue ℚ ℚ ℚ :=
  ⟨f64mul, f64add, toF64 (2126/10000), toF64 (7152/10000), toF64 (722/10000)⟩

/-- Embedding of `struct Rgb<T: LuminanceValue>` (lib.rs 141-146): three public
channel fields.  In Rust the field type is `T::Channel`; here the container is
parameterized directly by the channel type. -/
structure Rgb (C : Type) where
  r : C
  g : C
  b : C

/-- Embedding of `Rgb::new` (lib.rs 150-152): stores the three arguments with
no validation. -/
def Rgb.new {C : Type} (r g b : C) : Rgb C :=
  Rgb.mk r g b

/-- Embedding of the inherent method `Rgb::relative_luminance` (lib.rs 154-156):
delegates to the free function on its own fields. -/
def Rgb.relative_luminance {C W X : Type} (T : LuminanceValue C W X)
    (self : Rgb C) : X :=
  RelLum.relative_luminance T self.r self.g self.b

/-- Embedding of `trait Luminance<T>` (lib.rs 187-193) restricted to its single
required method `luminance_rgb`: an implementation of the trait for a type `S`
is a normalization function from `S` to the RGB container. -/
structure Luminance (C : Type) (S : Type) where
  luminance_rgb : S → Rgb C

/-- Embedding of the provided (default) trait method
`Luminance::relative_luminance` (lib.rs 190-192):
`self.luminance_rgb().relative_luminance()`. -/
def Luminance.relative_luminance {C W X S : Type} (T : LuminanceValue C W X)
    (L : Luminance C S) (self : S) : X :=
  Rgb.relative_luminance T (L.luminance_rgb self)

/-- Embedding of `impl<T> Luminance<T> for Rgb<T>`, required method
(lib.rs 196-198): the body is `*self`, i.e. the container normalizes to a copy
of itself. -/
def rgbLuminanceImpl (C : Type) : Luminance C (Rgb C) :=
  Luminance.mk (fun self => self)

/-- Embedding of the override of `relative_luminance` in
`impl<T> Luminance<T> for Rgb<T>` (lib.rs 200-203): calls the inherent
`Rgb::relative_luminance` directly, skipping `luminance_rgb`. -/
def rgbLuminanceOverride {C W X : Type} (T : LuminanceValue C W X)
    (self : Rgb C) : X :=
  Rgb.relative_luminance T self

/-- Formula of spec §4.2 and §8, written from the spec's words: the weighted
sum `(r × RED_WEIGHT) + (g × GREEN_WEIGHT) + (b × BLUE_WEIGHT)` evaluated
left-to-right, red term first, then the green term added to it, then the blue
term added last. -/
def specLuminanceFormula {C W X : Type} (T : LuminanceValue C W X)
    (r g b : C) : X :=
  T.add (T.add (T.mul r T.RED_WEIGHT) (T.mul g T.GREEN_WEIGHT)) (T.mul b T.BLUE_WEIGHT)

/-! ## Embedding of `examples/contrast.rs` -/

/-- Embedding of `struct RgbWrapper(Rgb)` (contrast.rs 5): wraps an
`owo_colors::Rgb`, a triple of `u8` channels. -/
structure RgbWrapper where
  r : Fin 256
  g : Fin 256
  b : Fin 256

/-- Embedding of one channel of `RgbWrapper::luminance_rgb` (contrast.rs 10-12):
`f32::from(c) / 255.0`.  `u8 → f32` conversion is exact; the division is a
single correctly rounded binary32 operation. -/
def wrapChan (c : Fin 256) : ℚ :=
  f32div (toF32 (c.val : ℚ)) (toF32 255)

/-- Embedding of `impl Luminance<f32> for RgbWrapper` (contrast.rs 7-15):
normalizes each 8-bit channel by dividing by 255.0. -/
def rgbWrapperImpl : Luminance ℚ RgbWrapper :=
  Luminance.mk (fun w => Rgb.mk (wrapChan w.r) (wrapChan w.g) (wrapChan w.b))

/-! ## Properties of the rounding model

Correctness bounds for `floorLog2` and monotonicity of round-to-nearest-even,
leading to monotonicity of the binary32/binary64 operations. -/

theorem pow2LE_def (c : ℤ) (q : ℚ) :
    pow2LE c q = (if 0 ≤ c then decide (2 ^ c.toNat * q.den ≤ q.num.natAbs)
      else decide (q.den ≤ q.num.natAbs * 2 ^ (-c).toNat)) := rfl

theorem floorLog2_def (q : ℚ) :
    floorLog2 q =
      (if pow2LE ((natLog2 q.num.natAbs : ℤ) - (natLog2 q.den : ℤ)) q
       then (natLog2 q.num.natAbs : ℤ) - (natLog2 q.den : ℤ)
       else (natLog2 q.num.natAbs : ℤ) - (natLog2 q.den : ℤ) - 1) := rfl

theorem rne_eq_rneN (s : ℚ) : rne s = rneN s.num.natAbs s.den := rfl

theorem roundPos_eq (prec : ℕ) (kmin : ℤ) (q : ℚ) :
    roundPos prec kmin q = roundGrid (kexp prec kmin q) q := rfl

/- natLog2 lemmas -/

theorem log2Aux_eq_log2 : ∀ fuel n : ℕ, n ≤ fuel → log2Aux fuel n = Nat.log2 n := by
  intro fuel
  induction fuel with
  | zero =>
    intro n hn
    have hn0 : n = 0 := by omega
    subst hn0
    simp [log2Aux, Nat.log2]
  | succ fuel ih =>
    intro n hn
    match n with
    | 0 => simp [log2Aux, Nat.log2]
    | m+1 =>
      show (if m + 1 < 2 then 0 else log2Aux fuel ((m + 1) / 2) + 1) = Nat.log2 (m+1)
      rw [Nat.log2]
      by_cases h2 : m + 1 < 2
      · rw [if_pos h2, if_neg (by omega)]
      · rw [if_neg h2, if_pos (by omega : 2 ≤ m + 1)]
        have hd : (m + 1) / 2 ≤ fuel := by
          have := Nat.div_lt_self (by omega : 0 < m + 1) (by omega : 1 < 2)
          omega
        rw [ih _ hd]

theorem natLog2_eq (n : ℕ) : natLog2 n = Nat.log2 n :=
  log2Aux_eq_log2 n n le_rfl

theorem natLog2_self_le {n : ℕ} (h : n ≠ 0) : 2 ^ natLog2 n ≤ n := by
  rw [natLog2_eq]; exact Nat.log2_self_le h

theorem natLog2_lt_self (n : ℕ) : n < 2 ^ (natLog2 n + 1) := by
  rw [natLog2_eq]; exact Nat.lt_log2_self

/- basic facts about casts and powers -/

theorem two_zpow_pos (k : ℤ) : (0 : ℚ) < 2 ^ k :=
  zpow_pos (by norm_num) k

theorem den_cast_pos (q : ℚ) : (0 : ℚ) < (q.den : ℚ) := by
  exact_mod_cast q.den_pos

theorem natCast_two_pow (t : ℕ) : ((2 ^ t : ℕ) : ℚ) = (2:ℚ) ^ (t : ℤ) := by
  push_cast
  rw [zpow_natCast]

theorem eq_natAbs_div_den {q : ℚ} (h : 0 ≤ q) :
    q = (q.num.natAbs : ℚ) / (q.den : ℚ) := by
  have hnum : ((q.num.natAbs : ℕ) : ℚ) = (q.num : ℚ) := by
    have h2 : (q.num.natAbs : ℤ) = q.num := Int.natAbs_of_nonneg (Rat.num_nonneg.2 h)
    calc ((q.num.natAbs : ℕ) : ℚ) = (((q.num.natAbs : ℕ) : ℤ) : ℚ) :=
          (Int.cast_natCast _).symm
      _ = (q.num : ℚ) := by rw [h2]
  rw [hnum]
  exact (Rat.num_div_den q).symm

theorem natCast_div_le_div_iff {a b a' b' : ℕ} (hb : 0 < b) (hb' : 0 < b') :
    (a : ℚ) / (b : ℚ) ≤ (a' : ℚ) / (b' : ℚ) ↔ a * b' ≤ a' * b := by
  rw [div_le_div_iff₀ (by exact_mod_cast hb) (by exact_mod_cast hb'),
    ← Nat.cast_mul, ← Nat.cast_mul, Nat.cast_le]

/- mulPow2 lemmas -/

theorem mulPow2_eq (q : ℚ) (k : ℤ) : mulPow2 q k = q * (2 : ℚ) ^ k := by
  unfold mulPow2
  by_cases h : 0 ≤ k
  · rw [if_pos h, ← zpow_natCast (2:ℚ), Int.toNat_of_nonneg h]
  · rw [if_neg h, ← zpow_natCast (2:ℚ), Int.toNat_of_nonneg (by omega : (0:ℤ) ≤ -k),
      div_eq_mul_inv, ← zpow_neg, neg_neg]

theorem mulPow2_nonneg {q : ℚ} (h : 0 ≤ q) (k : ℤ) : 0 ≤ mulPow2 q k := by
  rw [mulPow2_eq]
  exact mul_nonneg h (two_zpow_pos k).le

theorem mulPow2_mono {q q' : ℚ} (k : ℤ) (h : q ≤ q') : mulPow2 q k ≤ mulPow2 q' k := by
  rw [mulPow2_eq, mulPow2_eq]
  exact mul_le_mul_of_nonneg_right h (two_zpow_pos k).le

theorem mulPow2_strict_mono {q q' : ℚ} (k : ℤ) (h : q < q') :
    mulPow2 q k < mulPow2 q' k := by
  rw [mulPow2_eq, mulPow2_eq]
  exact mul_lt_mul_of_pos_right h (two_zpow_pos k)

/- pow2LE and floorLog2 lemmas -/

theorem num_natAbs_pos {q : ℚ} (hq : 0 < q) : 0 < q.num.natAbs := by
  have : 0 < q.num := Rat.num_pos.2 hq
  omega

theorem pow2LE_iff {q : ℚ} (hq : 0 < q) (c : ℤ) :
    pow2LE c q = true ↔ (2 : ℚ) ^ c ≤ q := by
  rw [pow2LE_def]
  have hb : (0 : ℚ) < (q.den : ℚ) := den_cast_pos q
  by_cases h : 0 ≤ c
  · rw [if_pos h]
    simp only [decide_eq_true_eq]
    have hcast : ((2 ^ c.toNat * q.den : ℕ) : ℚ) = (2:ℚ) ^ c * (q.den : ℚ) := by
      rw [Nat.cast_mul, natCast_two_pow, Int.toNat_of_nonneg h]
    constructor
    · intro hle
      rw [eq_natAbs_div_den hq.le, le_div_iff₀ hb, ← hcast]
      exact_mod_cast hle
    · intro hle
      rw [eq_natAbs_div_den hq.le, le_div_iff₀ hb, ← hcast] at hle
      exact_mod_cast hle
  · rw [if_neg h]
    simp only [decide_eq_true_eq]
    have hpow : (2:ℚ) ^ c = ((2:ℚ) ^ (-c).toNat)⁻¹ := by
      rw [← zpow_natCast (2:ℚ), Int.toNat_of_nonneg (by omega : (0:ℤ) ≤ -c), ← zpow_neg,
        neg_neg]
    have hp2 : (0:ℚ) < (2:ℚ) ^ (-c).toNat := by positivity
    have hcast : ((q.num.natAbs * 2 ^ (-c).toNat : ℕ) : ℚ)
        = (2:ℚ) ^ (-c).toNat * (q.num.natAbs : ℚ) := by
      rw [Nat.cast_mul, Nat.cast_pow]
      push_cast
      ring
    constructor
    · intro hle
      rw [eq_natAbs_div_den hq.le, le_div_iff₀ hb, hpow, inv_mul_le_iff₀ hp2, ← hcast]
      exact_mod_cast hle
    · intro hle
      rw [eq_natAbs_div_den hq.le, le_div_iff₀ hb, hpow, inv_mul_le_iff₀ hp2, ← hcast] at hle
      exact_mod_cast hle

theorem floorLog2_le {q : ℚ} (hq : 0 < q) : (2 : ℚ) ^ floorLog2 q ≤ q := by
  rw [floorLog2_def]
  set c0 : ℤ := (natLog2 q.num.natAbs : ℤ) - (natLog2 q.den : ℤ) with hc0
  by_cases hp : pow2LE c0 q
  · rw [if_pos hp]
    exact (pow2LE_iff hq c0).1 hp
  · rw [if_neg hp]
    have hbpos : (0:ℚ) < (q.den : ℚ) := den_cast_pos q
    have hla : (2:ℚ) ^ (natLog2 q.num.natAbs : ℤ) ≤ (q.num.natAbs : ℚ) := by
      calc (2:ℚ) ^ (natLog2 q.num.natAbs : ℤ)
          = ((2 ^ natLog2 q.num.natAbs : ℕ) : ℚ) := (natCast_two_pow _).symm
        _ ≤ (q.num.natAbs : ℚ) := by
            exact_mod_cast natLog2_self_le (by have := num_natAbs_pos hq; omega)
    have hlb : (q.den : ℚ) < (2:ℚ) ^ ((natLog2 q.den : ℤ) + 1) := by
      calc (q.den : ℚ) < ((2 ^ (natLog2 q.den + 1) : ℕ) : ℚ) := by
            exact_mod_cast natLog2_lt_self q.den
        _ = (2:ℚ) ^ ((natLog2 q.den : ℤ) + 1) := by
            rw [natCast_two_pow]
            congr 1
    have key : (2:ℚ) ^ (c0 - 1) < q := by
      rw [eq_natAbs_div_den hq.le, lt_div_iff₀ hbpos]
      calc (2:ℚ) ^ (c0 - 1) * (q.den : ℚ)
          < (2:ℚ) ^ (c0 - 1) * (2:ℚ) ^ ((natLog2 q.den : ℤ) + 1) :=
            mul_lt_mul_of_pos_left hlb (two_zpow_pos _)
        _ = (2:ℚ) ^ (natLog2 q.num.natAbs : ℤ) := by
            rw [← zpow_add₀ (by norm_num : (2:ℚ) ≠ 0)]
            congr 1
            all_goals omega
        _ ≤ (q.num.natAbs : ℚ) := hla
    exact key.le

theorem floorLog2_lt {q : ℚ} (hq : 0 < q) : q < (2 : ℚ) ^ (floorLog2 q + 1) := by
  rw [floorLog2_def]
  set c0 : ℤ := (natLog2 q.num.natAbs : ℤ) - (natLog2 q.den : ℤ) with hc0
  have hbpos : (0:ℚ) < (q.den : ℚ) := den_cast_pos q
  have hua : (q.num.natAbs : ℚ) < (2:ℚ) ^ ((natLog2 q.num.natAbs : ℤ) + 1) := by
    calc (q.num.natAbs : ℚ) < ((2 ^ (natLog2 q.num.natAbs + 1) : ℕ) : ℚ) := by
          exact_mod_cast natLog2_lt_self q.num.natAbs
      _ = (2:ℚ) ^ ((natLog2 q.num.natAbs : ℤ) + 1) := by
          rw [natCast_two_pow]
          congr 1
  have hub : (2:ℚ) ^ (natLog2 q.den : ℤ) ≤ (q.den : ℚ) := by
    calc (2:ℚ) ^ (natLog2 q.den : ℤ) = ((2 ^ natLog2 q.den : ℕ) : ℚ) :=
          (natCast_two_pow _).symm
      _ ≤ (q.den : ℚ) := by exact_mod_cast natLog2_self_le q.den_pos.ne'
  have hup : q < (2:ℚ) ^ (c0 + 1) := by
    rw [eq_natAbs_div_den hq.le, div_lt_iff₀ hbpos]
    calc (q.num.natAbs : ℚ) < (2:ℚ) ^ ((natLog2 q.num.natAbs : ℤ) + 1) := hua
      _ = (2:ℚ) ^ (c0 + 1) * (2:ℚ) ^ (natLog2 q.den : ℤ) := by
          rw [← zpow_add₀ (by norm_num : (2:ℚ) ≠ 0)]
          congr 1
          all_goals omega
      _ ≤ (2:ℚ) ^ (c0 + 1) * (q.den : ℚ) :=
          mul_le_mul_of_nonneg_left hub (two_zpow_pos _).le
  by_cases hp : pow2LE c0 q
  · rw [if_pos hp]
    exact hup
  · rw [if_neg hp]
    have hnle : ¬ ((2:ℚ) ^ c0 ≤ q) := fun hcon => hp ((pow2LE_iff hq c0).2 hcon)
    push_neg at hnle
    calc q < (2:ℚ) ^ c0 := hnle
      _ = (2:ℚ) ^ (c0 - 1 + 1) := by congr 1; omega

theorem floorLog2_mono {q q' : ℚ} (hq : 0 < q) (h : q ≤ q') :
    floorLog2 q ≤ floorLog2 q' := by
  have hq' : 0 < q' := lt_of_lt_of_le hq h
  have h1 : (2:ℚ) ^ floorLog2 q ≤ q := floorLog2_le hq
  have h2 : q' < (2:ℚ) ^ (floorLog2 q' + 1) := floorLog2_lt hq'
  by_contra hcon
  push_neg at hcon
  have hge : (2:ℚ) ^ (floorLog2 q' + 1) ≤ (2:ℚ) ^ floorLog2 q :=
    zpow_le_zpow_right₀ (by norm_num) (by omega)
  linarith

/- rneN lemmas -/

theorem rneN_ge (a b : ℕ) : a / b ≤ rneN a b := by
  unfold rneN
  split
  · exact le_rfl
  · split
    · omega
    · split
      · exact le_rfl
      · omega

theorem rneN_le (a b : ℕ) : rneN a b ≤ a / b + 1 := by
  unfold rneN
  split
  · omega
  · split
    · omega
    · split
      · omega
      · omega

theorem rneN_eq_low {a b : ℕ} (h : 2 * (a % b) < b) : rneN a b = a / b := by
  unfold rneN
  rw [if_pos h]

theorem rneN_eq_high {a b : ℕ} (h : b < 2 * (a % b)) : rneN a b = a / b + 1 := by
  unfold rneN
  rw [if_neg (by omega), if_pos h]

theorem rneN_tie_even {a b : ℕ} (h1 : 2 * (a % b) = b) (h2 : (a / b) % 2 = 0) :
    rneN a b = a / b := by
  unfold rneN
  rw [if_neg (by omega), if_neg (by omega), if_pos h2]

theorem rneN_tie_odd {a b : ℕ} (h1 : 2 * (a % b) = b) (h2 : ¬ (a / b) % 2 = 0) :
    rneN a b = a / b + 1 := by
  unfold rneN
  rw [if_neg (by omega), if_neg (by omega), if_neg h2]

theorem rneN_mono {a b a' b' : ℕ} (hb : 0 < b) (hb' : 0 < b')
    (h : a * b' ≤ a' * b) : rneN a b ≤ rneN a' b' := by
  have hdiv : a / b ≤ a' / b' := by
    rw [Nat.le_div_iff_mul_le hb']
    have h1 : (a / b) * b ≤ a := Nat.div_mul_le_self a b
    have h2 : (a / b) * b' * b ≤ a' * b := by
      calc (a / b) * b' * b = (a / b) * b * b' := by ring
        _ ≤ a * b' := Nat.mul_le_mul_right b' h1
        _ ≤ a' * b := h
    exact Nat.le_of_mul_le_mul_right h2 hb
  rcases Nat.lt_or_ge (a / b) (a' / b') with hlt | hge
  · calc rneN a b ≤ a / b + 1 := rneN_le a b
      _ ≤ a' / b' := hlt
      _ ≤ rneN a' b' := rneN_ge a' b'
  · have heq : a / b = a' / b' := le_antisymm hdiv hge
    have hmoda : b * (a / b) + a % b = a := Nat.div_add_mod a b
    have hmoda' : b' * (a' / b') + a' % b' = a' := Nat.div_add_mod a' b'
    have hrem : (a % b) * b' ≤ (a' % b') * b := by
      have expand : (b * (a / b) + a % b) * b' ≤ (b' * (a / b) + a' % b') * b := by
        rw [hmoda]
        calc a * b' ≤ a' * b := h
          _ = (b' * (a' / b') + a' % b') * b := by rw [hmoda']
          _ = (b' * (a / b) + a' % b') * b := by rw [heq]
      have expand2 : (a / b) * (b * b') + (a % b) * b'
          ≤ (a / b) * (b * b') + (a' % b') * b := by
        calc (a / b) * (b * b') + (a % b) * b' = (b * (a / b) + a % b) * b' := by ring
          _ ≤ (b' * (a / b) + a' % b') * b := expand
          _ = (a / b) * (b * b') + (a' % b') * b := by ring
      exact le_of_add_le_add_left expand2
    by_cases hA : 2 * (a % b) < b
    · rw [rneN_eq_low hA, heq]
      exact rneN_ge a' b'
    · by_cases hB : b < 2 * (a % b)
      · have hright : b' < 2 * (a' % b') := by
          have h1 : b * b' < 2 * (a % b) * b' :=
            (Nat.mul_lt_mul_right hb').2 hB
          have h2 : 2 * (a % b) * b' ≤ 2 * (a' % b') * b := by
            calc 2 * (a % b) * b' = 2 * ((a % b) * b') := by ring
              _ ≤ 2 * ((a' % b') * b) := Nat.mul_le_mul_left 2 hrem
              _ = 2 * (a' % b') * b := by ring
          have h3 : b' * b < 2 * (a' % b') * b := by
            calc b' * b = b * b' := by ring
              _ < 2 * (a % b) * b' := h1
              _ ≤ 2 * (a' % b') * b := h2
          exact lt_of_mul_lt_mul_right h3 (Nat.zero_le b)
        rw [rneN_eq_high hB, rneN_eq_high hright, heq]
      · have htie : 2 * (a % b) = b := by omega
        by_cases hpar : (a / b) % 2 = 0
        · rw [rneN_tie_even htie hpar, heq]
          exact rneN_ge a' b'
        · rw [rneN_tie_odd htie hpar]
          have hright : b' ≤ 2 * (a' % b') := by
            have h1 : b * b' ≤ 2 * (a' % b') * b := by
              calc b * b' = 2 * (a % b) * b' := by rw [htie]
                _ = 2 * ((a % b) * b') := by ring
                _ ≤ 2 * ((a' % b') * b) := Nat.mul_le_mul_left 2 hrem
                _ = 2 * (a' % b') * b := by ring
            have h2 : b' * b ≤ 2 * (a' % b') * b := by
              calc b' * b = b * b' := by ring
                _ ≤ 2 * (a' % b') * b := h1
            exact Nat.le_of_mul_le_mul_right h2 hb
          by_cases hC : b' < 2 * (a' % b')
          · rw [rneN_eq_high hC, heq]
          · have htie' : 2 * (a' % b') = b' := by omega
            have hpar' : ¬ (a' / b') % 2 = 0 := by rw [← heq]; exact hpar
            rw [rneN_tie_odd htie' hpar', heq]

/- rne lemmas -/

theorem rne_mono {s s' : ℚ} (hs : 0 ≤ s) (h : s ≤ s') : rne s ≤ rne s' := by
  have hs' : 0 ≤ s' := le_trans hs h
  rw [rne_eq_rneN, rne_eq_rneN]
  apply rneN_mono s.den_pos s'.den_pos
  rw [← natCast_div_le_div_iff s.den_pos s'.den_pos,
    ← eq_natAbs_div_den hs, ← eq_natAbs_div_den hs']
  exact h

theorem rneN_one (n : ℕ) : rneN n 1 = n := by
  unfold rneN
  rw [Nat.mod_one, Nat.div_one]
  norm_num

theorem rne_natCast (n : ℕ) : rne (n : ℚ) = n := by
  rw [rne_eq_rneN]
  rw [show ((n : ℚ).num.natAbs) = n by rw [Rat.num_natCast]; exact Int.natAbs_ofNat n]
  rw [show ((n : ℚ).den) = 1 from Rat.den_natCast n]
  exact rneN_one n

theorem rne_eq_zero {s : ℚ} (hs : 0 ≤ s) (h : s < 1/2) : rne s = 0 := by
  rw [rne_eq_rneN]
  have hb : (0:ℚ) < (s.den : ℚ) := den_cast_pos s
  have hq : (s.num.natAbs : ℚ) / (s.den : ℚ) < 1/2 := by
    rw [← eq_natAbs_div_den hs]
    exact h
  rw [div_lt_div_iff₀ hb (by norm_num : (0:ℚ) < 2)] at hq
  have h1 : ((s.num.natAbs * 2 : ℕ) : ℚ) < ((s.den : ℕ) : ℚ) := by push_cast; linarith
  have hnat : s.num.natAbs * 2 < s.den := by exact_mod_cast h1
  unfold rneN
  have hlt : s.num.natAbs < s.den := by omega
  rw [Nat.div_eq_of_lt hlt, Nat.mod_eq_of_lt hlt, if_pos (by omega)]

/- roundGrid lemmas -/

theorem roundGrid_nonneg (k : ℤ) (q : ℚ) : 0 ≤ roundGrid k q :=
  mulPow2_nonneg (Nat.cast_nonneg _) k

theorem roundGrid_mono {q q' : ℚ} (k : ℤ) (hq : 0 ≤ q) (h : q ≤ q') :
    roundGrid k q ≤ roundGrid k q' := by
  unfold roundGrid
  apply mulPow2_mono
  exact_mod_cast rne_mono (mulPow2_nonneg hq (-k)) (mulPow2_mono (-k) h)

theorem roundGrid_zpow {k m : ℤ} (h : k ≤ m) :
    roundGrid k ((2:ℚ) ^ m) = (2:ℚ) ^ m := by
  unfold roundGrid
  have hmk : (0:ℤ) ≤ m - k := by omega
  have step1 : mulPow2 ((2:ℚ) ^ m) (-k) = ((2 ^ (m - k).toNat : ℕ) : ℚ) := by
    rw [mulPow2_eq, ← zpow_add₀ (by norm_num : (2:ℚ) ≠ 0), natCast_two_pow,
      Int.toNat_of_nonneg hmk]
    congr 1
  rw [step1, rne_natCast, natCast_two_pow, Int.toNat_of_nonneg hmk, mulPow2_eq,
    ← zpow_add₀ (by norm_num : (2:ℚ) ≠ 0)]
  congr 1
  all_goals omega

/- kexp lemmas -/

theorem kmin_le_kexp (prec : ℕ) (kmin : ℤ) (q : ℚ) : kmin ≤ kexp prec kmin q := by
  unfold kexp
  split
  · exact le_rfl
  · omega

theorem kexp_mono {q q' : ℚ} (prec : ℕ) (kmin : ℤ) (hq : 0 < q) (h : q ≤ q') :
    kexp prec kmin q ≤ kexp prec kmin q' := by
  have hf := floorLog2_mono hq h
  unfold kexp
  split
  · split
    · exact le_rfl
    · omega
  · split
    · omega
    · omega

theorem kexp_congr {q q' : ℚ} (prec : ℕ) (kmin : ℤ)
    (h : floorLog2 q = floorLog2 q') : kexp prec kmin q = kexp prec kmin q' := by
  unfold kexp
  rw [h]

/- roundPos and roundFloat monotonicity -/

theorem roundPos_nonneg (prec : ℕ) (kmin : ℤ) (q : ℚ) : 0 ≤ roundPos prec kmin q := by
  rw [roundPos_eq]
  exact roundGrid_nonneg _ _

theorem roundPos_mono {q q' : ℚ} (prec : ℕ) (kmin : ℤ) (hprec : 1 ≤ prec)
    (hq : 0 < q) (h : q ≤ q') :
    roundPos prec kmin q ≤ roundPos prec kmin q' := by
  have hq' : 0 < q' := lt_of_lt_of_le hq h
  have hkk' : kexp prec kmin q ≤ kexp prec kmin q' := kexp_mono prec kmin hq h
  rw [roundPos_eq, roundPos_eq]
  rcases eq_or_lt_of_le hkk' with heq | hklt
  · rw [heq]
    exact roundGrid_mono _ hq.le h
  · have hee' : floorLog2 q ≤ floorLog2 q' := floorLog2_mono hq h
    have helt : floorLog2 q < floorLog2 q' := by
      rcases eq_or_lt_of_le hee' with heeq | h2

      · exact absurd (kexp_congr prec kmin heeq) (by omega)
      · exact h2
    have hk'val : kexp prec kmin q' = floorLog2 q' - ((prec : ℤ) - 1) := by
      have hgt : kmin < kexp prec kmin q' :=
        lt_of_le_of_lt (kmin_le_kexp prec kmin q) hklt
      by_cases hsplit : floorLog2 q' - ((prec : ℤ) - 1) ≤ kmin
      · exfalso
        have : kexp prec kmin q' = kmin := by unfold kexp; rw [if_pos hsplit]
        omega
      · unfold kexp
        rw [if_neg hsplit]
    have hk'le : kexp prec kmin q' ≤ floorLog2 q' := by
      rw [hk'val]
      have : (1:ℤ) ≤ (prec : ℤ) := by exact_mod_cast hprec
      omega
    have hlower : (2:ℚ) ^ floorLog2 q' ≤ roundGrid (kexp prec kmin q') q' := by
      calc (2:ℚ) ^ floorLog2 q'
          = roundGrid (kexp prec kmin q') ((2:ℚ) ^ floorLog2 q') :=
            (roundGrid_zpow hk'le).symm
        _ ≤ roundGrid (kexp prec kmin q') q' :=
            roundGrid_mono _ (two_zpow_pos _).le (floorLog2_le hq')
    by_cases hke : kexp prec kmin q ≤ floorLog2 q + 1
    · calc roundGrid (kexp prec kmin q) q
          ≤ roundGrid (kexp prec kmin q) ((2:ℚ) ^ (floorLog2 q + 1)) :=
            roundGrid_mono _ hq.le (floorLog2_lt hq).le
        _ = (2:ℚ) ^ (floorLog2 q + 1) := roundGrid_zpow hke
        _ ≤ (2:ℚ) ^ floorLog2 q' := zpow_le_zpow_right₀ (by norm_num) (by omega)
        _ ≤ roundGrid (kexp prec kmin q') q' := hlower
    · push_neg at hke
      have hzero : roundGrid (kexp prec kmin q) q = 0 := by
        unfold roundGrid
        have hs : mulPow2 q (-(kexp prec kmin q)) < 1/2 := by
          have h1 : mulPow2 q (-(kexp prec kmin q))
              < mulPow2 ((2:ℚ) ^ (floorLog2 q + 1)) (-(kexp prec kmin q)) :=
            mulPow2_strict_mono _ (floorLog2_lt hq)
          have h2 : mulPow2 ((2:ℚ) ^ (floorLog2 q + 1)) (-(kexp prec kmin q))
              = (2:ℚ) ^ (floorLog2 q + 1 - kexp prec kmin q) := by
            rw [mulPow2_eq, ← zpow_add₀ (by norm_num : (2:ℚ) ≠ 0)]
            congr 1
          have h3 : (2:ℚ) ^ (floorLog2 q + 1 - kexp prec kmin q) ≤ (2:ℚ) ^ (-1 : ℤ) :=
            zpow_le_zpow_right₀ (by norm_num) (by omega)
          have h4 : (2:ℚ) ^ (-1 : ℤ) = 1/2 := by norm_num
          calc mulPow2 q (-(kexp prec kmin q))
              < (2:ℚ) ^ (floorLog2 q + 1 - kexp prec kmin q) := h2 ▸ h1
            _ ≤ 1/2 := h4 ▸ h3
        rw [rne_eq_zero (mulPow2_nonneg hq.le _) hs, Nat.cast_zero, mulPow2_eq, zero_mul]
      rw [hzero]
      exact roundGrid_nonneg _ _

theorem roundFloat_nonneg (prec : ℕ) (kmin : ℤ) {q : ℚ} (h : 0 ≤ q) :
    0 ≤ roundFloat prec kmin q := by
  unfold roundFloat
  by_cases h0 : q = 0
  · rw [if_pos h0]
  · rw [if_neg h0, if_pos (lt_of_le_of_ne h (Ne.symm h0))]
    exact roundPos_nonneg prec kmin q

theorem roundFloat_nonpos (prec : ℕ) (kmin : ℤ) {q : ℚ} (h : q ≤ 0) :
    roundFloat prec kmin q ≤ 0 := by
  unfold roundFloat
  by_cases h0 : q = 0
  · rw [if_pos h0]
  · rw [if_neg h0, if_neg (not_lt.2 h)]
    exact neg_nonpos.2 (roundPos_nonneg prec kmin (-q))

theorem roundFloat_mono {q q' : ℚ} (prec : ℕ) (kmin : ℤ) (hprec : 1 ≤ prec)
    (h : q ≤ q') : roundFloat prec kmin q ≤ roundFloat prec kmin q' := by
  rcases le_or_lt 0 q with hq | hq
  · by_cases hq0 : q = 0
    · rw [hq0]
      rw [show roundFloat prec kmin 0 = 0 by unfold roundFloat; rw [if_pos rfl]]
      exact roundFloat_nonneg prec kmin (hq0 ▸ h)
    · have hqpos : 0 < q := lt_of_le_of_ne hq (Ne.symm hq0)
      have hq'pos : 0 < q' := lt_of_lt_of_le hqpos h
      unfold roundFloat
      rw [if_neg (ne_of_gt hqpos), if_pos hqpos, if_neg (ne_of_gt hq'pos), if_pos hq'pos]
      exact roundPos_mono prec kmin hprec hqpos h
  · rcases le_or_lt 0 q' with hq' | hq'
    · exact le_trans (roundFloat_nonpos prec kmin hq.le) (roundFloat_nonneg prec kmin hq')
    · unfold roundFloat
      rw [if_neg (ne_of_lt hq), if_neg (not_lt.2 hq.le),
        if_neg (ne_of_lt hq'), if_neg (not_lt.2 hq'.le)]
      apply neg_le_neg
      exact roundPos_mono prec kmin hprec (by linarith) (by linarith)

theorem toF32_mono {q q' : ℚ} (h : q ≤ q') : toF32 q ≤ toF32 q' :=
  roundFloat_mono 24 (-149) (by norm_num) h

theorem toF64_mono {q q' : ℚ} (h : q ≤ q') : toF64 q ≤ toF64 q' :=
  roundFloat_mono 53 (-1074) (by norm_num) h

/-! ## Theorems -/

/-- C1: for every numeric policy `T` and all channel values `r`, `g`, `b`, the
luminance computation returns `(r * RED_WEIGHT) + (g * GREEN_WEIGHT) +
(b * BLUE_WEIGHT)` evaluated in exactly the spec's left-to-right order: the
red term first, the green term added to it, and the blue term added last.
The left-hand side is the embedding of `relative_luminance` (lib.rs 105-111),
the right-hand side is the formula written from the spec's words. -/
theorem relative_luminance_follows_spec_formula
    {C W X : Type} (T : LuminanceValue C W X) (r g b : C) :
    relative_luminance T r g b = specLuminanceFormula T r g b :=
  rfl

/-- C2: the two reference policies (lib.rs 113-129) use the respective float
type for `Channel`, `Weight` and `Weighted` (in the model, exact binary32 or
binary64 arithmetic on the rationals those floats denote), and their weight
constants are the decimal literals 0.2126 / 0.7152 / 0.0722 rounded to that
precision.  The right-hand sides below are the IEEE-754 binary32 and binary64
values nearest to those decimals, written as explicit dyadic rationals. -/
theorem reference_policy_weights :
    f32Policy.RED_WEIGHT = 14267344 / 2 ^ 26 ∧
    f32Policy.GREEN_WEIGHT = 11999065 / 2 ^ 24 ∧
    f32Policy.BLUE_WEIGHT = 9690520 / 2 ^ 27 ∧
    f64Policy.RED_WEIGHT = 7659722246231740 / 2 ^ 55 ∧
    f64Policy.GREEN_WEIGHT = 6441948906990757 / 2 ^ 53 ∧
    f64Policy.BLUE_WEIGHT = 5202558289538397 / 2 ^ 56 := by
  decide

/-- C3: for every policy and every RGB container value, the override of
`relative_luminance` in `impl Luminance for Rgb` (lib.rs 200-203) returns a
result identical to the general derivation path (lib.rs 190-192) applied to
the container's trait implementation: the override is purely an optimization.
In this exact-value model, equality of results is bit-identity of the finite
float values they denote. -/
theorem rgb_override_equals_derived_path
    {C W X : Type} (T : LuminanceValue C W X) (c : Rgb C) :
    rgbLuminanceOverride T c
      = Luminance.relative_luminance T (rgbLuminanceImpl C) c :=
  rfl

/-- C4: for every type `S` implementing the `Luminance` trait through its
single required method `luminance_rgb`, the derived accessor (lib.rs 190-192)
is the luminance computation applied to the `r`, `g`, `b` fields of the one
container produced by the single call `self.luminance_rgb()`: the right-hand
side consumes the normalization result exactly once through `c`. -/
theorem derived_accessor_runs_computation_on_normalized
    {C W X S : Type} (T : LuminanceValue C W X) (L : Luminance C S) (s : S) :
    Luminance.relative_luminance T L s
      = (fun c => relative_luminance T c.r c.g c.b) (L.luminance_rgb s) :=
  rfl

/-- C5: the RGB container satisfies the `Luminance` capability itself
(lib.rs 195-198) and its normalization method is the identity: applied to a
container `c` it returns a duplicate of `c` whose `r`, `g`, `b` fields equal
the fields of `c`. -/
theorem rgb_normalization_is_identity {C : Type} (c : Rgb C) :
    (rgbLuminanceImpl C).luminance_rgb c = c ∧
    ((rgbLuminanceImpl C).luminance_rgb c).r = c.r ∧
    ((rgbLuminanceImpl C).luminance_rgb c).g = c.g ∧
    ((rgbLuminanceImpl C).luminance_rgb c).b = c.b :=
  ⟨rfl, rfl, rfl, rfl⟩

/-- C6: raising any channel while the others are held fixed (stated jointly:
raising each channel) never decreases the luminance.  First conjunct: for every
numeric policy over preordered types whose addition is monotone and whose
channel-by-weight multiplication is monotone in the channel at each of the
three weights — the order-theoretic content of "non-negative weights" for an
arbitrary numeric policy.  Second and third conjuncts: the two shipped
reference policies, whose rounded binary32/binary64 operations satisfy those
conditions because IEEE round-to-nearest-even is monotone (`roundFloat_mono`)
and their weight constants are non-negative. -/
theorem relative_luminance_monotone :
    (∀ (C W X : Type) [Preorder C] [Preorder X] (T : LuminanceValue C W X),
      (∀ x x' y y' : X, x ≤ x' → y ≤ y' → T.add x y ≤ T.add x' y') →
      (∀ c c' : C, c ≤ c' → T.mul c T.RED_WEIGHT ≤ T.mul c' T.RED_WEIGHT) →
      (∀ c c' : C, c ≤ c' → T.mul c T.GREEN_WEIGHT ≤ T.mul c' T.GREEN_WEIGHT) →
      (∀ c c' : C, c ≤ c' → T.mul c T.BLUE_WEIGHT ≤ T.mul c' T.BLUE_WEIGHT) →
      ∀ r r' g g' b b' : C, r ≤ r' → g ≤ g' → b ≤ b' →
        relative_luminance T r g b ≤ relative_luminance T r' g' b') ∧
    (∀ r r' g g' b b' : ℚ, r ≤ r' → g ≤ g' → b ≤ b' →
      relative_luminance f32Policy r g b ≤ relative_luminance f32Policy r' g' b') ∧
    (∀ r r' g g' b b' : ℚ, r ≤ r' → g ≤ g' → b ≤ b' →
      relative_luminance f64Policy r g b ≤ relative_luminance f64Policy r' g' b') := by
  have habs : ∀ (C W X : Type) [Preorder C] [Preorder X] (T : LuminanceValue C W X),
      (∀ x x' y y' : X, x ≤ x' → y ≤ y' → T.add x y ≤ T.add x' y') →
      (∀ c c' : C, c ≤ c' → T.mul c T.RED_WEIGHT ≤ T.mul c' T.RED_WEIGHT) →
      (∀ c c' : C, c ≤ c' → T.mul c T.GREEN_WEIGHT ≤ T.mul c' T.GREEN_WEIGHT) →
      (∀ c c' : C, c ≤ c' → T.mul c T.BLUE_WEIGHT ≤ T.mul c' T.BLUE_WEIGHT) →
      ∀ r r' g g' b b' : C, r ≤ r' → g ≤ g' → b ≤ b' →
        relative_luminance T r g b ≤ relative_luminance T r' g' b' := by
    intro C W X instC instX T hadd hmr hmg hmb r r' g g' b b' hrr hgg hbb
    exact hadd _ _ _ _ (hadd _ _ _ _ (hmr _ _ hrr) (hmg _ _ hgg)) (hmb _ _ hbb)
  have hw32 : ∀ d : ℚ, 0 ≤ d → (0:ℚ) ≤ toF32 d := fun d hd =>
    roundFloat_nonneg 24 (-149) hd
  have hw64 : ∀ d : ℚ, 0 ≤ d → (0:ℚ) ≤ toF64 d := fun d hd =>
    roundFloat_nonneg 53 (-1074) hd
  refine ⟨habs, ?_, ?_⟩
  · apply habs ℚ ℚ ℚ f32Policy
    · intro x x' y y' hx hy
      exact toF32_mono (add_le_add hx hy)
    · intro c c' hcc
      exact toF32_mono (mul_le_mul_of_nonneg_right hcc (hw32 _ (by norm_num)))
    · intro c c' hcc
      exact toF32_mono (mul_le_mul_of_nonneg_right hcc (hw32 _ (by norm_num)))
    · intro c c' hcc
      exact toF32_mono (mul_le_mul_of_nonneg_right hcc (hw32 _ (by norm_num)))
  · apply habs ℚ ℚ ℚ f64Policy
    · intro x x' y y' hx hy
      exact toF64_mono (add_le_add hx hy)
    · intro c c' hcc
      exact toF64_mono (mul_le_mul_of_nonneg_right hcc (hw64 _ (by norm_num)))
    · intro c c' hcc
      exact toF64_mono (mul_le_mul_of_nonneg_right hcc (hw64 _ (by norm_num)))
    · intro c c' hcc
      exact toF64_mono (mul_le_mul_of_nonneg_right hcc (hw64 _ (by norm_num)))

/-- C7: boundary values for the two float policies. `luminance(0,0,0)` is
exactly 0, and `luminance(1,1,1)` — which by the computation is the rounded
sum `0.2126 + 0.7152 + 0.0722` of the weight constants — is exactly 1.0 in
both binary32 and binary64 arithmetic: the rounded weights sum to exactly 1
after the final rounding. -/
theorem float_policy_boundary_values :
    relative_luminance f32Policy 0 0 0 = 0 ∧
    relative_luminance f64Policy 0 0 0 = 0 ∧
    relative_luminance f32Policy 1 1 1 = 1 ∧
    relative_luminance f64Policy 1 1 1 = 1 := by
  decide

/-- C8: the adapter scenario of `examples/contrast.rs` under the 32-bit float
policy, dividing 8-bit channels by 255.0.  The expected decimal values of the
spec's table denote binary32 literals, i.e. the binary32 value nearest each
decimal; in particular the computed luminance of (255,255,0) is bit-identical
to the binary32 value nearest 0.9278. -/
theorem adapter_scenario_table :
    Luminance.relative_luminance f32Policy rgbWrapperImpl (RgbWrapper.mk 0 0 0) = 0 ∧
    Luminance.relative_luminance f32Policy rgbWrapperImpl (RgbWrapper.mk 255 255 255) = 1 ∧
    Luminance.relative_luminance f32Policy rgbWrapperImpl (RgbWrapper.mk 255 0 0) = toF32 (2126/10000) ∧
    Luminance.relative_luminance f32Policy rgbWrapperImpl (RgbWrapper.mk 0 255 0) = toF32 (7152/10000) ∧
    Luminance.relative_luminance f32Policy rgbWrapperImpl (RgbWrapper.mk 0 0 255) = toF32 (722/10000) ∧
    Luminance.relative_luminance f32Policy rgbWrapperImpl (RgbWrapper.mk 255 255 0) = toF32 (9278/10000) := by
  decide

/-- C9: the RGB container constructor (lib.rs 150-152) performs no validation
and cannot fail: for every channel type and every triple of channel values —
in particular values outside the [0,1] convention, which in the exact float
model are arbitrary rationals — construction succeeds (the function is total)
and the resulting fields are exactly the given arguments.  No operation of the
library rejects such values; they flow into the policy's arithmetic. -/
theorem rgb_new_stores_arguments_unvalidated {C : Type} (r g b : C) :
    (Rgb.new r g b).r = r ∧ (Rgb.new r g b).g = g ∧ (Rgb.new r g b).b = b :=
  ⟨rfl, rfl, rfl⟩

/-- C10: under the 32-bit float policy, the relative luminance of pure green
(computed through the trait implementation of `Rgb`, as in the crate doc
example) is strictly above 0.5, and that of pure blue is strictly below 0.5. -/
theorem green_light_blue_dark :
    rgbLuminanceOverride f32Policy (Rgb.mk 0 1 0) > 1/2 ∧
    rgbLuminanceOverride f32Policy (Rgb.mk 0 0 1) < 1/2 := by
  decide

end RelLum
